import Mathlib

/-!
# copyNBytes: a bounds-checked, overlap-detecting byte copy

Shallow embedding of `copyNBytes` from `src/copyNBytes.c`.

Modelling conventions

* Memory is flat and byte addressed: a function from addresses to byte values.
  The copy only moves bytes and never computes on them, so byte values are kept
  as natural numbers.
* Pointers are natural-number addresses and `NULL` is address `0`.  In
  `copyNBytes` pointer arithmetic does not wrap around (the regions are assumed
  to fit in the address space), so `src + n_bytes` is plain addition.
  `copyNBytesWrap` is the same function with the two pointer sums of the overlap
  test reduced modulo the size `A` of the address space, as the compiled code
  computes them; the two agree whenever `dest + dsize` and `src + n_bytes` stay
  below `A`.
* Arithmetic on `void *` moves by one byte (the GNU C reading the source relies
  on, also in `src + n_bytes` of the overlap test).  In `*((long *)dest++)` the
  postfix increment binds tighter than the cast, so it is the `void *` that is
  incremented: the store is `sizeof(long)` bytes wide while the cursor advances
  by one byte.
* `sizeof(long)` is a platform constant and is taken as the parameter `W`.
* The `while` loop is run with a bound on the number of iterations; running out
  of iterations is reported as `none`.  `copyNBytes` supplies `n_bytes`
  iterations, which is shown to be always enough.
-/

namespace CopyNBytes

/-- Byte-addressed memory. -/
abbrev Mem := Nat → Nat

/-- The null pointer. -/
def NULL : Nat := 0

def ERR_NONE : Int := 0
def ERR_DST_NULL : Int := -1
def ERR_SRC_NULL : Int := -2
def ERR_LOW_DST_MEM : Int := -3
def ERR_ZEROBYTES_CP : Int := -4
def ERR_SRC_DST_OVERLAP : Int := -5

/-- Memory after `k` bytes starting at `src` have been loaded and then stored at
`dest`: the effect of one assignment `*(T *)dest = *(const T *)src` with
`sizeof(T) = k`. The load happens before the store, so the right-hand side
reads the memory as it was before the assignment. -/
def storeBytes (k : Nat) (m : Mem) (dest src : Nat) : Mem :=
  fun a => if dest ≤ a ∧ a < dest + k then m (src + (a - dest)) else m a

/-- Effect on memory of `*((long *)dest) = *((const long *)src)`. -/
def storeLong (W : Nat) (m : Mem) (dest src : Nat) : Mem :=
  storeBytes W m dest src

/-- Effect on memory of `*((char *)dest) = *((const char *)src)`. -/
def storeChar (m : Mem) (dest src : Nat) : Mem :=
  storeBytes 1 m dest src

/-- The variables the copy loop works on, together with the memory. -/
structure LoopState where
  mem : Mem
  dest : Nat
  src : Nat
  n_bytes : Nat

/-- The condition of the `if` inside the loop (line 51). -/
def longAligned (W : Nat) (st : LoopState) : Prop :=
  st.dest % W = 0 ∧ st.src % W = 0 ∧ st.n_bytes % W = 0

instance (W : Nat) (st : LoopState) : Decidable (longAligned W st) := by
  unfold longAligned; infer_instance

/-- One iteration of the loop body (lines 50-58). -/
def loopBody (W : Nat) (st : LoopState) : LoopState :=
  if longAligned W st then
    { mem := storeLong W st.mem st.dest st.src
      dest := st.dest + 1
      src := st.src + 1
      n_bytes := st.n_bytes - W }
  else
    { mem := storeChar st.mem st.dest st.src
      dest := st.dest + 1
      src := st.src + 1
      n_bytes := st.n_bytes - 1 }

/-- The loop `while (n_bytes) { ... }` (lines 49-59), run for at most `fuel`
iterations. The result is `none` when the loop has not exited by then. -/
def copyLoop (W : Nat) : Nat → LoopState → Option LoopState
  | 0, st => if st.n_bytes = 0 then some st else none
  | fuel + 1, st =>
    if st.n_bytes = 0 then some st else copyLoop W fuel (loopBody W st)

/-- The overlap test of line 46, for addresses taken as natural numbers: the
sums `src + n_bytes` and `dest + dsize` do not wrap around. `overlapCheckWrap`
is the test with wrapping sums. -/
def overlapCheck (dest dsize src n_bytes : Nat) : Prop :=
  (dest > src ∧ dest < src + n_bytes) ∨ (src > dest ∧ src < dest + dsize)

instance (dest dsize src n_bytes : Nat) :
    Decidable (overlapCheck dest dsize src n_bytes) := by
  unfold overlapCheck; infer_instance

/-- The function `copyNBytes` (lines 30-62): the returned code paired with the
memory after the call. -/
def copyNBytes (W : Nat) (m : Mem) (dest dsize src n_bytes : Nat) :
    Option (Int × Mem) :=
  if dest = NULL then some (ERR_DST_NULL, m)
  else if src = NULL then some (ERR_SRC_NULL, m)
  else if dsize < n_bytes then some (ERR_LOW_DST_MEM, m)
  else if n_bytes = 0 then some (ERR_ZEROBYTES_CP, m)
  else if overlapCheck dest dsize src n_bytes then some (ERR_SRC_DST_OVERLAP, m)
  else (copyLoop W n_bytes ⟨m, dest, src, n_bytes⟩).map
    fun st => (ERR_NONE, st.mem)

/-- The overlap test of line 46 as the compiled code computes it: the pointer
sums `src + n_bytes` and `dest + dsize` are reduced modulo the number `A` of
addresses (`2 ^ 64` where pointers are 64 bits wide). -/
def overlapCheckWrap (A : Nat) (dest dsize src n_bytes : Nat) : Prop :=
  (dest > src ∧ dest < (src + n_bytes) % A) ∨ (src > dest ∧ src < (dest + dsize) % A)

instance (A dest dsize src n_bytes : Nat) :
    Decidable (overlapCheckWrap A dest dsize src n_bytes) := by
  unfold overlapCheckWrap; infer_instance

/-- The function `copyNBytes` (lines 30-62) with the overlap test computed with
wrapping pointer sums. The loop is the same: its cursors stay below
`dest + n_bytes` and `src + n_bytes`, so their increments are exact whenever
these two sums are within the address space. -/
def copyNBytesWrap (A W : Nat) (m : Mem) (dest dsize src n_bytes : Nat) :
    Option (Int × Mem) :=
  if dest = NULL then some (ERR_DST_NULL, m)
  else if src = NULL then some (ERR_SRC_NULL, m)
  else if dsize < n_bytes then some (ERR_LOW_DST_MEM, m)
  else if n_bytes = 0 then some (ERR_ZEROBYTES_CP, m)
  else if overlapCheckWrap A dest dsize src n_bytes then some (ERR_SRC_DST_OVERLAP, m)
  else (copyLoop W n_bytes ⟨m, dest, src, n_bytes⟩).map
    fun st => (ERR_NONE, st.mem)

/-- The code returned by a call. -/
def retCode (r : Option (Int × Mem)) : Option Int :=
  r.map Prod.fst

/-- The byte at address `a` in the memory left by a call. -/
def byteAfter (r : Option (Int × Mem)) (a : Nat) : Option Nat :=
  r.map fun p => p.2 a

/-- Address `a` lies in the range of `n` bytes starting at `p`, that is in
`[p, p + n)`. -/
def inRange (p n a : Nat) : Prop :=
  p ≤ a ∧ a < p + n

instance (p n a : Nat) : Decidable (inRange p n a) := by
  unfold inRange; infer_instance

/-- A memory in which every byte differs from its neighbours: the byte at
address `a` is `a % 256`. -/
def addrMem : Mem := fun a => a % 256

/-- The number of bytes the iteration that starts in `st` loads and stores:
`sizeof(long)` in the `long` branch, one in the `char` branch. -/
def accessWidth (W : Nat) (st : LoopState) : Nat :=
  if longAligned W st then W else 1

/-- The states in which the successive iterations of the loop body start, when
the loop is run for at most `fuel` iterations: the loop of `copyLoop` with the
state recorded each time the body is entered. -/
def loopIters (W : Nat) : Nat → LoopState → List LoopState
  | 0, _ => []
  | fuel + 1, st =>
    if st.n_bytes = 0 then [] else st :: loopIters W fuel (loopBody W st)

/-- How many of the iterations `its` store to address `a`, an iteration storing
to the `accessWidth` consecutive addresses from its destination cursor on. -/
def writeCount (W : Nat) (its : List LoopState) (a : Nat) : Nat :=
  its.countP fun it => decide (inRange it.dest (accessWidth W it) a)

/-- The plain byte-by-byte copy the specification compares the loop with: for
`i` from `0` to `n - 1`, `destination[i] := source[i]`. -/
def plainByteCopy (n : Nat) (m : Mem) (dest src : Nat) : Mem :=
  (List.range n).foldl (fun acc i => storeChar acc (dest + i) (src + i)) m

/-- A state from which the `long` branch cannot be taken, now or later: the two
cursors differ modulo `sizeof(long)`, or the destination cursor plus the count
is not a multiple of `sizeof(long)`. -/
def neverLong (W : Nat) (st : LoopState) : Prop :=
  st.dest % W ≠ st.src % W ∨ (st.dest + st.n_bytes) % W ≠ 0

/-- A state from which every iteration moves exactly one byte: `sizeof(long)`
is one, or the `long` branch cannot be taken. -/
def oneByteSteps (W : Nat) (st : LoopState) : Prop :=
  W = 1 ∨ neverLong W st

/-! ## The loop -/

/-- In the `long` branch the count is at least `sizeof(long)`, so the unsigned
subtraction `n_bytes -= sizeof(long)` does not wrap. -/
theorem longAligned_le (W : Nat) (st : LoopState) (h : longAligned W st)
    (hn : st.n_bytes ≠ 0) : 0 < W ∧ W ≤ st.n_bytes := by
  obtain ⟨_, _, h3⟩ := h
  rcases Nat.eq_zero_or_pos W with hW | hW
  · subst hW
    rw [Nat.mod_zero] at h3
    exact absurd h3 hn
  · exact ⟨hW, Nat.le_of_dvd (Nat.pos_of_ne_zero hn) (Nat.dvd_of_mod_eq_zero h3)⟩

theorem loopBody_dest (W : Nat) (st : LoopState) :
    (loopBody W st).dest = st.dest + 1 := by
  unfold loopBody; split <;> rfl

theorem loopBody_src (W : Nat) (st : LoopState) :
    (loopBody W st).src = st.src + 1 := by
  unfold loopBody; split <;> rfl

/-- Every iteration strictly decreases the remaining count. -/
theorem loopBody_n_bytes_lt (W : Nat) (st : LoopState) (hn : st.n_bytes ≠ 0) :
    (loopBody W st).n_bytes < st.n_bytes := by
  unfold loopBody
  split
  · next h =>
    have := longAligned_le W st h hn
    show st.n_bytes - W < st.n_bytes
    omega
  · show st.n_bytes - 1 < st.n_bytes
    omega

/-- The window `[dest, dest + n_bytes)` never grows. -/
theorem loopBody_window (W : Nat) (st : LoopState) (hn : st.n_bytes ≠ 0) :
    (loopBody W st).dest + (loopBody W st).n_bytes ≤ st.dest + st.n_bytes := by
  unfold loopBody
  split
  · next h =>
    have := longAligned_le W st h hn
    show st.dest + 1 + (st.n_bytes - W) ≤ st.dest + st.n_bytes
    omega
  · show st.dest + 1 + (st.n_bytes - 1) ≤ st.dest + st.n_bytes
    omega

/-- One iteration writes only inside the window `[dest, dest + n_bytes)`. -/
theorem loopBody_frame (W : Nat) (st : LoopState) (hn : st.n_bytes ≠ 0) (a : Nat)
    (ha : a < st.dest ∨ st.dest + st.n_bytes ≤ a) :
    (loopBody W st).mem a = st.mem a := by
  unfold loopBody
  split
  · next h =>
    have := longAligned_le W st h hn
    show storeBytes W st.mem st.dest st.src a = st.mem a
    unfold storeBytes
    rw [if_neg (by omega)]
  · show storeBytes 1 st.mem st.dest st.src a = st.mem a
    unfold storeBytes
    rw [if_neg (by omega)]

/-- With as many iterations as the remaining count the loop exits, with the
count at zero, and it has written only inside `[dest, dest + n_bytes)`. -/
theorem copyLoop_exits (W : Nat) (fuel : Nat) (st : LoopState)
    (h : st.n_bytes ≤ fuel) :
    ∃ st', copyLoop W fuel st = some st' ∧ st'.n_bytes = 0 ∧
      ∀ a, (a < st.dest ∨ st.dest + st.n_bytes ≤ a) → st'.mem a = st.mem a := by
  induction fuel generalizing st with
  | zero =>
    have h0 : st.n_bytes = 0 := by omega
    exact ⟨st, by simp [copyLoop, h0], h0, fun _ _ => rfl⟩
  | succ fuel ih =>
    by_cases h0 : st.n_bytes = 0
    · exact ⟨st, by simp [copyLoop, h0], h0, fun _ _ => rfl⟩
    · have hlt := loopBody_n_bytes_lt W st h0
      have hwin := loopBody_window W st h0
      have hd := loopBody_dest W st
      obtain ⟨st', hrun, hz, hfr⟩ := ih (loopBody W st) (by omega)
      refine ⟨st', by simp [copyLoop, h0, hrun], hz, ?_⟩
      intro a ha
      rw [hfr a (by omega)]
      exact loopBody_frame W st h0 a ha

/-- Storing bytes onto the place they were loaded from changes nothing. -/
theorem storeBytes_self (k : Nat) (m : Mem) (p : Nat) : storeBytes k m p p = m := by
  funext a
  unfold storeBytes
  split
  · next h =>
    have : p + (a - p) = a := by omega
    rw [this]
  · rfl

/-- When both cursors hold the same address the loop leaves memory as it was. -/
theorem copyLoop_same_addr (W : Nat) (fuel : Nat) (st st' : LoopState)
    (heq : st.dest = st.src) (hrun : copyLoop W fuel st = some st') :
    st'.mem = st.mem := by
  induction fuel generalizing st with
  | zero =>
    unfold copyLoop at hrun
    split at hrun
    · cases hrun; rfl
    · cases hrun
  | succ fuel ih =>
    unfold copyLoop at hrun
    split at hrun
    · cases hrun; rfl
    · have hb : (loopBody W st).mem = st.mem := by
        unfold loopBody
        split
        · show storeBytes W st.mem st.dest st.src = st.mem
          rw [← heq, storeBytes_self]
        · show storeBytes 1 st.mem st.dest st.src = st.mem
          rw [← heq, storeBytes_self]
      rw [ih (loopBody W st) (by rw [loopBody_dest, loopBody_src, heq]) hrun, hb]

/-! ## The call -/

/-- Once the five checks have passed, the call is the loop followed by
`return ERR_NONE`. -/
theorem copyNBytes_of_checks (W : Nat) (m : Mem) (dest dsize src n_bytes : Nat)
    (hd : dest ≠ NULL) (hs : src ≠ NULL) (hc : ¬ dsize < n_bytes) (hn : n_bytes ≠ 0)
    (ho : ¬ overlapCheck dest dsize src n_bytes) :
    copyNBytes W m dest dsize src n_bytes =
      (copyLoop W n_bytes ⟨m, dest, src, n_bytes⟩).map fun st => (ERR_NONE, st.mem) := by
  unfold copyNBytes
  rw [if_neg hd, if_neg hs, if_neg hc, if_neg hn, if_neg ho]

/-- Once the five checks have passed, the call returns `ERR_NONE` together with
the memory the loop has left. -/
theorem copyNBytes_of_checks_some (W : Nat) (m : Mem) (dest dsize src n_bytes : Nat)
    (hd : dest ≠ NULL) (hs : src ≠ NULL) (hc : ¬ dsize < n_bytes) (hn : n_bytes ≠ 0)
    (ho : ¬ overlapCheck dest dsize src n_bytes) :
    ∃ st', copyLoop W n_bytes ⟨m, dest, src, n_bytes⟩ = some st' ∧
      copyNBytes W m dest dsize src n_bytes = some (ERR_NONE, st'.mem) := by
  obtain ⟨st', hrun, _, _⟩ := copyLoop_exits W n_bytes ⟨m, dest, src, n_bytes⟩ (Nat.le_refl _)
  refine ⟨st', hrun, ?_⟩
  rw [copyNBytes_of_checks W m dest dsize src n_bytes hd hs hc hn ho, hrun]
  rfl

/-- A call that returns `ERR_NONE` has passed the five checks and has run the
loop to its exit. -/
theorem copyNBytes_ERR_NONE_inv (W : Nat) (m : Mem) (dest dsize src n_bytes : Nat)
    (m' : Mem) (h : copyNBytes W m dest dsize src n_bytes = some (ERR_NONE, m')) :
    dest ≠ NULL ∧ src ≠ NULL ∧ ¬ dsize < n_bytes ∧ n_bytes ≠ 0 ∧
      ¬ overlapCheck dest dsize src n_bytes ∧
      ∃ st', copyLoop W n_bytes ⟨m, dest, src, n_bytes⟩ = some st' ∧ st'.mem = m' := by
  unfold copyNBytes at h
  split at h
  · simp [ERR_NONE, ERR_DST_NULL] at h
  split at h
  · simp [ERR_NONE, ERR_SRC_NULL] at h
  split at h
  · simp [ERR_NONE, ERR_LOW_DST_MEM] at h
  split at h
  · simp [ERR_NONE, ERR_ZEROBYTES_CP] at h
  split at h
  · simp [ERR_NONE, ERR_SRC_DST_OVERLAP] at h
  next hd hs hc hn ho =>
  refine ⟨hd, hs, hc, hn, ho, ?_⟩
  cases hrun : copyLoop W n_bytes ⟨m, dest, src, n_bytes⟩ with
  | none => rw [hrun] at h; cases h
  | some st' =>
    rw [hrun] at h
    simp only [Option.map_some', Option.some.injEq, Prod.mk.injEq] at h
    exact ⟨st', rfl, h.2⟩

/-! ## The claims -/

/-- C1, evaluated where it fails. With `sizeof(long) = 8`, both addresses
multiples of 8, 16 bytes requested out of a capacity of 16 and the destination
region `[16, 32)` ending before the source range `[64, 80)` begins, the call
returns `ERR_NONE`, yet the destination bytes at offsets 9 to 15
still hold what they held before the call, which is not what the source holds
at these offsets. -/
theorem copyNBytes_long_multiple_tail_not_copied :
    (16 ≠ NULL ∧ 64 ≠ NULL ∧ 0 < 16 ∧ 16 ≤ 16 ∧ 16 + 16 ≤ 64) ∧
    retCode (copyNBytes 8 addrMem 16 16 64 16) = some ERR_NONE ∧
    ∀ i, i < 16 → 9 ≤ i →
      byteAfter (copyNBytes 8 addrMem 16 16 64 16) (16 + i) = some (addrMem (16 + i)) ∧
      addrMem (16 + i) ≠ addrMem (64 + i) := by
  decide

/-- C2: a call with a null destination returns `ERR_DST_NULL`, whatever the
other arguments are. -/
theorem copyNBytes_dest_null (W : Nat) (m : Mem) (dsize src n_bytes : Nat) :
    retCode (copyNBytes W m NULL dsize src n_bytes) = some ERR_DST_NULL := by
  simp [copyNBytes, retCode]

/-- C3: a call with a non-null destination and a null source returns
`ERR_SRC_NULL`, whatever the capacity and the requested count are. -/
theorem copyNBytes_src_null (W : Nat) (m : Mem) (dest dsize n_bytes : Nat)
    (hd : dest ≠ NULL) :
    retCode (copyNBytes W m dest dsize NULL n_bytes) = some ERR_SRC_NULL := by
  simp [copyNBytes, retCode, hd]

theorem copyNBytes_src_null_witness :
    (16 : Nat) ≠ NULL ∧ retCode (copyNBytes 8 addrMem 16 10 NULL 10) = some ERR_SRC_NULL :=
  ⟨by decide, copyNBytes_src_null 8 addrMem 16 10 10 (by decide)⟩

/-- C4: a call with non-null destination and source whose capacity is below the
requested count returns `ERR_LOW_DST_MEM`, whatever the two addresses are. -/
theorem copyNBytes_low_dst_mem (W : Nat) (m : Mem) (dest dsize src n_bytes : Nat)
    (hd : dest ≠ NULL) (hs : src ≠ NULL) (hc : dsize < n_bytes) :
    retCode (copyNBytes W m dest dsize src n_bytes) = some ERR_LOW_DST_MEM := by
  simp [copyNBytes, retCode, hd, hs, hc]

theorem copyNBytes_low_dst_mem_witness :
    (16 : Nat) ≠ NULL ∧ (64 : Nat) ≠ NULL ∧ 10 < 20 ∧
      retCode (copyNBytes 8 addrMem 16 10 64 20) = some ERR_LOW_DST_MEM :=
  ⟨by decide, by decide, by decide,
    copyNBytes_low_dst_mem 8 addrMem 16 10 64 20 (by decide) (by decide) (by decide)⟩

/-- C5: a call with non-null destination and source that requests zero bytes
returns `ERR_ZEROBYTES_CP`, for every capacity and whatever the two addresses
are. -/
theorem copyNBytes_zero_bytes (W : Nat) (m : Mem) (dest dsize src : Nat)
    (hd : dest ≠ NULL) (hs : src ≠ NULL) :
    retCode (copyNBytes W m dest dsize src 0) = some ERR_ZEROBYTES_CP := by
  simp [copyNBytes, retCode, hd, hs]

theorem copyNBytes_zero_bytes_witness :
    (16 : Nat) ≠ NULL ∧ (16 : Nat) ≠ NULL ∧
      retCode (copyNBytes 8 addrMem 16 0 16 0) = some ERR_ZEROBYTES_CP :=
  ⟨by decide, by decide, copyNBytes_zero_bytes 8 addrMem 16 0 16 (by decide) (by decide)⟩

/-- C6: with a non-null source, a requested count within the capacity and the
destination `k` bytes after the source for some `0 < k < n_bytes`, the call
returns `ERR_SRC_DST_OVERLAP`. -/
theorem copyNBytes_forward_overlap (W : Nat) (m : Mem) (dsize src n_bytes k : Nat)
    (hs : src ≠ NULL) (hc : n_bytes ≤ dsize) (hk : 0 < k) (hkn : k < n_bytes) :
    retCode (copyNBytes W m (src + k) dsize src n_bytes) = some ERR_SRC_DST_OVERLAP := by
  have hd : src + k ≠ NULL := by unfold NULL; omega
  have hlt : ¬ dsize < n_bytes := by omega
  have hn : n_bytes ≠ 0 := by omega
  have ho : overlapCheck (src + k) dsize src n_bytes := by
    unfold overlapCheck; left; omega
  unfold copyNBytes
  rw [if_neg hd, if_neg hs, if_neg hlt, if_neg hn, if_pos ho]
  rfl

theorem copyNBytes_forward_overlap_witness :
    (64 : Nat) ≠ NULL ∧ 32 ≤ 100 ∧ 0 < 20 ∧ 20 < 32 ∧
      retCode (copyNBytes 8 addrMem (64 + 20) 100 64 32) = some ERR_SRC_DST_OVERLAP :=
  ⟨by decide, by decide, by decide, by decide,
    copyNBytes_forward_overlap 8 addrMem 100 64 32 20 (by decide) (by decide) (by decide)
      (by decide)⟩

/-- C7, evaluated where it fails. With destination and source at the same
address 16 and 4 bytes requested out of a capacity of 4, checks 1 to 4 pass and
every address of `[16, 20)` lies in both the source read range and the
destination write range, yet the call returns `ERR_NONE` and not
`ERR_SRC_DST_OVERLAP`. -/
theorem copyNBytes_same_address_not_reported :
    (16 ≠ NULL ∧ 16 ≠ NULL ∧ 0 < 4 ∧ 4 ≤ 4) ∧
    (∀ i, i < 4 → inRange 16 4 (16 + i) ∧ inRange 16 4 (16 + i)) ∧
    retCode (copyNBytes 8 addrMem 16 4 16 4) = some ERR_NONE ∧
    retCode (copyNBytes 8 addrMem 16 4 16 4) ≠ some ERR_SRC_DST_OVERLAP := by
  decide

/-- C8: a call that returns one of the five error codes leaves the memory
exactly as it was before the call. -/
theorem copyNBytes_error_keeps_memory (W : Nat) (m : Mem)
    (dest dsize src n_bytes : Nat) (c : Int)
    (hret : retCode (copyNBytes W m dest dsize src n_bytes) = some c)
    (herr : c = ERR_DST_NULL ∨ c = ERR_SRC_NULL ∨ c = ERR_LOW_DST_MEM ∨
      c = ERR_ZEROBYTES_CP ∨ c = ERR_SRC_DST_OVERLAP) :
    copyNBytes W m dest dsize src n_bytes = some (c, m) := by
  unfold copyNBytes at hret ⊢
  split
  · rw [if_pos (by assumption)] at hret; cases hret; rfl
  rw [if_neg (by assumption)] at hret
  split
  · rw [if_pos (by assumption)] at hret; cases hret; rfl
  rw [if_neg (by assumption)] at hret
  split
  · rw [if_pos (by assumption)] at hret; cases hret; rfl
  rw [if_neg (by assumption)] at hret
  split
  · rw [if_pos (by assumption)] at hret; cases hret; rfl
  rw [if_neg (by assumption)] at hret
  split
  · rw [if_pos (by assumption)] at hret; cases hret; rfl
  rw [if_neg (by assumption)] at hret
  exfalso
  cases hrun : copyLoop W n_bytes ⟨m, dest, src, n_bytes⟩ with
  | none => rw [hrun] at hret; cases hret
  | some st' =>
    rw [hrun] at hret
    cases hret
    simp [ERR_NONE, ERR_DST_NULL, ERR_SRC_NULL, ERR_LOW_DST_MEM, ERR_ZEROBYTES_CP,
      ERR_SRC_DST_OVERLAP] at herr

theorem copyNBytes_error_keeps_memory_witness :
    retCode (copyNBytes 8 addrMem (64 + 20) 100 64 32) = some ERR_SRC_DST_OVERLAP ∧
      copyNBytes 8 addrMem (64 + 20) 100 64 32 = some (ERR_SRC_DST_OVERLAP, addrMem) :=
  ⟨by decide,
    copyNBytes_error_keeps_memory 8 addrMem (64 + 20) 100 64 32 ERR_SRC_DST_OVERLAP
      (by decide) (by decide)⟩

/-- C9: the call returns `ERR_NONE` exactly when all five checks pass, so the
loop never fails once they have; and when checks 1 to 4 pass (non-null
destination and source, `0 < n_bytes ≤ dsize`) the call returns
`ERR_SRC_DST_OVERLAP` exactly when `src < dest < src + n_bytes` or
`dest < src < dest + dsize`, and `ERR_NONE` in every other case. -/
theorem copyNBytes_result_characterised (W : Nat) (m : Mem)
    (dest dsize src n_bytes : Nat) :
    (retCode (copyNBytes W m dest dsize src n_bytes) = some ERR_NONE ↔
      dest ≠ NULL ∧ src ≠ NULL ∧ ¬ dsize < n_bytes ∧ n_bytes ≠ 0 ∧
        ¬ ((src < dest ∧ dest < src + n_bytes) ∨ (dest < src ∧ src < dest + dsize))) ∧
    (dest ≠ NULL → src ≠ NULL → 0 < n_bytes → n_bytes ≤ dsize →
      (retCode (copyNBytes W m dest dsize src n_bytes) = some ERR_SRC_DST_OVERLAP ↔
        (src < dest ∧ dest < src + n_bytes) ∨ (dest < src ∧ src < dest + dsize)) ∧
      (¬ ((src < dest ∧ dest < src + n_bytes) ∨ (dest < src ∧ src < dest + dsize)) →
        retCode (copyNBytes W m dest dsize src n_bytes) = some ERR_NONE)) := by
  have hok : ∀ (_ : dest ≠ NULL) (_ : src ≠ NULL) (_ : ¬ dsize < n_bytes)
      (_ : n_bytes ≠ 0) (_ : ¬ overlapCheck dest dsize src n_bytes),
      retCode (copyNBytes W m dest dsize src n_bytes) = some ERR_NONE := by
    intro hd hs hc hn ho
    obtain ⟨st', _, hcall⟩ := copyNBytes_of_checks_some W m dest dsize src n_bytes hd hs hc hn ho
    rw [hcall]; rfl
  have hovl : ∀ (_ : dest ≠ NULL) (_ : src ≠ NULL) (_ : ¬ dsize < n_bytes)
      (_ : n_bytes ≠ 0) (_ : overlapCheck dest dsize src n_bytes),
      retCode (copyNBytes W m dest dsize src n_bytes) = some ERR_SRC_DST_OVERLAP := by
    intro hd hs hc hn ho
    unfold copyNBytes
    rw [if_neg hd, if_neg hs, if_neg hc, if_neg hn, if_pos ho]; rfl
  refine ⟨⟨?_, ?_⟩, ?_⟩
  · intro h
    by_cases hd : dest = NULL
    · simp [copyNBytes, retCode, hd, ERR_NONE, ERR_DST_NULL] at h
    by_cases hs : src = NULL
    · simp [copyNBytes, retCode, hd, hs, ERR_NONE, ERR_SRC_NULL] at h
    by_cases hc : dsize < n_bytes
    · simp [copyNBytes, retCode, hd, hs, hc, ERR_NONE, ERR_LOW_DST_MEM] at h
    by_cases hn : n_bytes = 0
    · simp [copyNBytes, retCode, hd, hs, hn, ERR_NONE, ERR_ZEROBYTES_CP] at h
    by_cases ho : overlapCheck dest dsize src n_bytes
    · rw [hovl hd hs hc hn ho] at h
      exact absurd h (by decide)
    · exact ⟨hd, hs, hc, hn, ho⟩
  · rintro ⟨hd, hs, hc, hn, ho⟩
    exact hok hd hs hc hn ho
  · intro hd hs hn hc
    have hc' : ¬ dsize < n_bytes := by omega
    have hn' : n_bytes ≠ 0 := by omega
    refine ⟨⟨?_, fun ho => hovl hd hs hc' hn' ho⟩, fun ho => hok hd hs hc' hn' ho⟩
    intro h
    by_contra ho
    rw [hok hd hs hc' hn' ho] at h
    exact absurd h (by decide)

theorem copyNBytes_result_characterised_witness :
    (16 ≠ NULL ∧ 64 ≠ NULL ∧ 0 < 10 ∧ 10 ≤ 100) ∧
    (retCode (copyNBytes 8 addrMem 16 100 64 10) = some ERR_SRC_DST_OVERLAP ↔
      (64 < 16 ∧ 16 < 64 + 10) ∨ (16 < 64 ∧ 64 < 16 + 100)) ∧
    (¬ ((64 < 16 ∧ 16 < 64 + 10) ∨ (16 < 64 ∧ 64 < 16 + 100)) →
      retCode (copyNBytes 8 addrMem 16 100 64 10) = some ERR_NONE) :=
  ⟨by decide,
    (copyNBytes_result_characterised 8 addrMem 16 100 64 10).2
      (by decide) (by decide) (by decide) (by decide)⟩

/-- With addresses taken as natural numbers (no wrap-around): after a call
that returns `ERR_NONE`, every byte outside the first `n_bytes` bytes of the
destination holds what it held before the call; in particular the destination
bytes at offsets `n_bytes` to `dsize - 1` are unchanged, and the `n_bytes`
source bytes are unchanged. -/
theorem copyNBytes_success_frame (W : Nat) (m : Mem) (dest dsize src n_bytes : Nat)
    (m' : Mem) (h : copyNBytes W m dest dsize src n_bytes = some (ERR_NONE, m')) :
    (∀ a, ¬ inRange dest n_bytes a → m' a = m a) ∧
    (∀ i, n_bytes ≤ i → i < dsize → m' (dest + i) = m (dest + i)) ∧
    (∀ i, i < n_bytes → m' (src + i) = m (src + i)) := by
  obtain ⟨_, _, hc, _, ho, st', hrun, hmem⟩ :=
    copyNBytes_ERR_NONE_inv W m dest dsize src n_bytes m' h
  obtain ⟨st'', hrun', _, hframe⟩ :=
    copyLoop_exits W n_bytes ⟨m, dest, src, n_bytes⟩ (Nat.le_refl _)
  rw [hrun] at hrun'
  cases hrun'
  subst hmem
  have houtside : ∀ a, ¬ inRange dest n_bytes a → st'.mem a = m a := by
    intro a ha
    apply hframe a
    show a < dest ∨ dest + n_bytes ≤ a
    unfold inRange at ha
    omega
  refine ⟨houtside, ?_, ?_⟩
  · intro i hi _
    apply houtside
    unfold inRange
    omega
  · intro i hi
    by_cases heq : dest = src
    · have hsame := copyLoop_same_addr W n_bytes ⟨m, dest, src, n_bytes⟩ st' heq hrun
      rw [hsame]
    · apply houtside
      unfold overlapCheck at ho
      unfold inRange
      omega

/-- When neither pointer sum wraps around, the overlap test with wrapping sums
is the overlap test on natural numbers. -/
theorem overlapCheckWrap_iff (A dest dsize src n_bytes : Nat)
    (hdw : dest + dsize < A) (hsw : src + n_bytes < A) :
    overlapCheckWrap A dest dsize src n_bytes ↔ overlapCheck dest dsize src n_bytes := by
  unfold overlapCheckWrap overlapCheck
  rw [Nat.mod_eq_of_lt hdw, Nat.mod_eq_of_lt hsw]

/-- When neither pointer sum wraps around, the call with wrapping sums is the
call on natural numbers. -/
theorem copyNBytesWrap_eq (A W : Nat) (m : Mem) (dest dsize src n_bytes : Nat)
    (hdw : dest + dsize < A) (hsw : src + n_bytes < A) :
    copyNBytesWrap A W m dest dsize src n_bytes = copyNBytes W m dest dsize src n_bytes := by
  have hiff := overlapCheckWrap_iff A dest dsize src n_bytes hdw hsw
  unfold copyNBytesWrap copyNBytes
  by_cases ho : overlapCheck dest dsize src n_bytes
  · rw [if_pos (hiff.2 ho), if_pos ho]
  · rw [if_neg (mt hiff.1 ho), if_neg ho]

/-- The loop body in one formula: it stores `accessWidth` bytes, advances both
cursors by one byte and takes `accessWidth` off the count. -/
theorem loopBody_eq (W : Nat) (st : LoopState) :
    loopBody W st =
      { mem := storeBytes (accessWidth W st) st.mem st.dest st.src
        dest := st.dest + 1
        src := st.src + 1
        n_bytes := st.n_bytes - accessWidth W st } := by
  unfold loopBody accessWidth
  split <;> rfl

/-- An iteration never accesses more bytes than remain to be copied. -/
theorem accessWidth_le (W : Nat) (st : LoopState) (hn : st.n_bytes ≠ 0) :
    0 < accessWidth W st ∧ accessWidth W st ≤ st.n_bytes := by
  unfold accessWidth
  split
  · next h => exact longAligned_le W st h hn
  · omega

/-- Every iteration starts with both cursors at the same offset `k` from the
addresses the loop started with, with a non-zero count, and with `k` plus the
count within the count the loop started with. -/
theorem loopIters_inv (W : Nat) (d0 s0 N : Nat) (fuel : Nat) (st : LoopState) (k : Nat)
    (hd : st.dest = d0 + k) (hs : st.src = s0 + k) (hk : k + st.n_bytes ≤ N) :
    ∀ it ∈ loopIters W fuel st, it.n_bytes ≠ 0 ∧
      ∃ k', it.dest = d0 + k' ∧ it.src = s0 + k' ∧ k' + it.n_bytes ≤ N := by
  induction fuel generalizing st k with
  | zero => intro it hit; simp [loopIters] at hit
  | succ fuel ih =>
    intro it hit
    unfold loopIters at hit
    split at hit
    · simp at hit
    · next h0 =>
      rcases List.mem_cons.1 hit with rfl | hit'
      · exact ⟨h0, k, hd, hs, hk⟩
      · have hw := loopBody_window W st h0
        rw [loopBody_dest] at hw
        exact ih (loopBody W st) (k + 1)
          (by rw [loopBody_dest, hd]; omega) (by rw [loopBody_src, hs]; omega)
          (by omega) it hit'

/-! ## The plain byte copy -/

theorem plainByteCopy_zero (m : Mem) (dest src : Nat) :
    plainByteCopy 0 m dest src = m := by
  simp [plainByteCopy]

/-- Copying `n + 1` bytes is copying the first byte and then `n` bytes from the
next addresses on. -/
theorem plainByteCopy_succ (n : Nat) (m : Mem) (dest src : Nat) :
    plainByteCopy (n + 1) m dest src =
      plainByteCopy n (storeChar m dest src) (dest + 1) (src + 1) := by
  unfold plainByteCopy
  rw [List.range_succ_eq_map, List.foldl_cons, List.foldl_map]
  have hf : (fun (acc : Mem) (i : Nat) => storeChar acc (dest + Nat.succ i) (src + Nat.succ i)) =
      fun acc i => storeChar acc (dest + 1 + i) (src + 1 + i) := by
    funext acc i
    rw [Nat.succ_eq_add_one, Nat.add_assoc dest 1 i, Nat.add_assoc src 1 i,
      Nat.add_comm 1 i]
  rw [hf]
  rfl

/-- For disjoint ranges the plain byte copy puts the source bytes into the
first `n` bytes of the destination and changes nothing else. -/
theorem plainByteCopy_apply (n : Nat) (m : Mem) (dest src : Nat)
    (hdisj : dest + n ≤ src ∨ src + n ≤ dest) (a : Nat) :
    plainByteCopy n m dest src a =
      if inRange dest n a then m (src + (a - dest)) else m a := by
  induction n generalizing m dest src with
  | zero =>
    rw [plainByteCopy_zero, if_neg]
    unfold inRange; omega
  | succ n ih =>
    rw [plainByteCopy_succ, ih (storeChar m dest src) (dest + 1) (src + 1) (by omega)]
    unfold inRange storeChar storeBytes
    split_ifs <;> first | rfl | (congr 1; omega)

/-! ## Runs without the `long` branch -/

theorem neverLong_not_longAligned (W : Nat) (st : LoopState) (h : neverLong W st) :
    ¬ longAligned W st := by
  rintro ⟨h1, h2, h3⟩
  rcases h with h | h
  · exact h (by rw [h1, h2])
  · apply h
    rw [Nat.add_mod, h1, h3]
    simp

theorem oneByteSteps_accessWidth (W : Nat) (st : LoopState) (h : oneByteSteps W st) :
    accessWidth W st = 1 := by
  unfold accessWidth
  split
  · next hl =>
    rcases h with h | h
    · exact h
    · exact absurd hl (neverLong_not_longAligned W st h)
  · rfl

theorem neverLong_loopBody (W : Nat) (st : LoopState) (h : neverLong W st)
    (hn : st.n_bytes ≠ 0) : neverLong W (loopBody W st) := by
  rw [loopBody_eq, oneByteSteps_accessWidth W st (Or.inr h)]
  rcases h with h | h
  · left
    show (st.dest + 1) % W ≠ (st.src + 1) % W
    intro hc
    exact h (Nat.ModEq.add_right_cancel' 1 hc)
  · right
    show (st.dest + 1 + (st.n_bytes - 1)) % W ≠ 0
    have : st.dest + 1 + (st.n_bytes - 1) = st.dest + st.n_bytes := by omega
    rw [this]
    exact h

theorem oneByteSteps_loopBody (W : Nat) (st : LoopState) (h : oneByteSteps W st)
    (hn : st.n_bytes ≠ 0) : oneByteSteps W (loopBody W st) := by
  rcases h with h | h
  · exact Or.inl h
  · exact Or.inr (neverLong_loopBody W st h hn)

/-- From a state with one-byte steps only, the loop is the plain byte copy of
the remaining count. -/
theorem copyLoop_oneByteSteps (W : Nat) (fuel : Nat) (st : LoopState)
    (h : oneByteSteps W st) (hf : st.n_bytes ≤ fuel) :
    copyLoop W fuel st =
      some { mem := plainByteCopy st.n_bytes st.mem st.dest st.src
             dest := st.dest + st.n_bytes
             src := st.src + st.n_bytes
             n_bytes := 0 } := by
  induction fuel generalizing st with
  | zero =>
    obtain ⟨m, d, s, n⟩ := st
    have h0 : n = 0 := by simpa using hf
    subst h0
    simp [copyLoop, plainByteCopy_zero]
  | succ fuel ih =>
    obtain ⟨m, d, s, n⟩ := st
    cases n with
    | zero => simp [copyLoop, plainByteCopy_zero]
    | succ n =>
      have hb := oneByteSteps_loopBody W ⟨m, d, s, n + 1⟩ h (by simp)
      rw [loopBody_eq, oneByteSteps_accessWidth W _ h] at hb
      unfold copyLoop
      rw [if_neg (by simp), loopBody_eq, oneByteSteps_accessWidth W _ h]
      rw [ih _ hb (by simpa using hf), plainByteCopy_succ]
      simp only [Nat.add_sub_cancel, storeChar, Option.some.injEq, LoopState.mk.injEq,
        true_and]
      exact ⟨by omega, by omega, trivial⟩

/-- From a state with one-byte steps only, the loop makes as many iterations as
the count says, the `j`-th one moving the byte at offset `j` from the cursors. -/
theorem loopIters_oneByteSteps (W : Nat) (fuel : Nat) (st : LoopState)
    (h : oneByteSteps W st) (hf : st.n_bytes ≤ fuel) :
    (loopIters W fuel st).map (fun it => (it.dest, it.src, accessWidth W it)) =
      (List.range st.n_bytes).map fun j => (st.dest + j, st.src + j, 1) := by
  induction fuel generalizing st with
  | zero =>
    have h0 : st.n_bytes = 0 := by omega
    simp [loopIters, h0]
  | succ fuel ih =>
    obtain ⟨m, d, s, n⟩ := st
    cases n with
    | zero => simp [loopIters]
    | succ n =>
      have hw := oneByteSteps_accessWidth W ⟨m, d, s, n + 1⟩ h
      have hb := oneByteSteps_loopBody W ⟨m, d, s, n + 1⟩ h (by simp)
      rw [loopBody_eq, hw] at hb
      unfold loopIters
      rw [if_neg (by simp), loopBody_eq, hw, List.map_cons, ih _ hb (by simpa using hf),
        List.range_succ_eq_map, List.map_cons, List.map_map, hw]
      simp only [Nat.add_sub_cancel, Nat.add_zero, List.cons.injEq, true_and]
      apply List.map_congr_left
      intro j _
      simp only [Function.comp, Nat.succ_eq_add_one, Prod.mk.injEq, and_true]
      omega

/-- From a state from which the `long` branch cannot be taken, no iteration
takes it. -/
theorem loopIters_neverLong (W : Nat) (fuel : Nat) (st : LoopState)
    (h : neverLong W st) : ∀ it ∈ loopIters W fuel st, ¬ longAligned W it := by
  induction fuel generalizing st with
  | zero => intro it hit; simp [loopIters] at hit
  | succ fuel ih =>
    intro it hit
    unfold loopIters at hit
    split at hit
    · simp at hit
    · next h0 =>
      rcases List.mem_cons.1 hit with rfl | hit'
      · exact neverLong_not_longAligned W it h
      · exact ih (loopBody W st) (neverLong_loopBody W st h h0) it hit'

/-! ## Two runs of the loop on memories that agree on the source -/

/-- The branch an iteration takes depends on the cursors and the count only. -/
theorem accessWidth_congr (W : Nat) (st1 st2 : LoopState) (hd : st2.dest = st1.dest)
    (hs : st2.src = st1.src) (hn : st2.n_bytes = st1.n_bytes) :
    accessWidth W st2 = accessWidth W st1 := by
  have hiff : longAligned W st2 ↔ longAligned W st1 := by
    unfold longAligned
    rw [hd, hs, hn]
  unfold accessWidth
  by_cases h : longAligned W st1
  · rw [if_pos h, if_pos (hiff.2 h)]
  · rw [if_neg h, if_neg (mt hiff.1 h)]

/-- Run the loop from the same cursors and count on two memories that agree on
the source range, the source range being disjoint from the destination range.
Then every address either is left untouched by both runs or ends with the same
byte in both. -/
theorem copyLoop_agree (W : Nat) (d0 s0 N : Nat) (hdisj : d0 + N ≤ s0 ∨ s0 + N ≤ d0)
    (fuel : Nat) (st1 st2 : LoopState) (k : Nat)
    (hd1 : st1.dest = d0 + k) (hs1 : st1.src = s0 + k) (hk : k + st1.n_bytes ≤ N)
    (hd2 : st2.dest = st1.dest) (hs2 : st2.src = st1.src)
    (hn2 : st2.n_bytes = st1.n_bytes)
    (hsrc : ∀ a, inRange s0 N a → st2.mem a = st1.mem a)
    (st1' st2' : LoopState) (h1 : copyLoop W fuel st1 = some st1')
    (h2 : copyLoop W fuel st2 = some st2') (a : Nat) :
    (st1'.mem a = st1.mem a ∧ st2'.mem a = st2.mem a) ∨ st1'.mem a = st2'.mem a := by
  induction fuel generalizing st1 st2 k with
  | zero =>
    unfold copyLoop at h1 h2
    split at h1
    · split at h2
      · cases h1; cases h2; exact Or.inl ⟨rfl, rfl⟩
      · cases h2
    · cases h1
  | succ fuel ih =>
    unfold copyLoop at h1 h2
    by_cases h0 : st1.n_bytes = 0
    · rw [if_pos h0] at h1
      rw [if_pos (by rw [hn2]; exact h0)] at h2
      cases h1; cases h2; exact Or.inl ⟨rfl, rfl⟩
    · rw [if_neg h0] at h1
      rw [if_neg (by rw [hn2]; exact h0)] at h2
      have hw := accessWidth_le W st1 h0
      have hwin := loopBody_window W st1 h0
      rw [loopBody_dest] at hwin
      have hb1 : (loopBody W st1).mem =
          storeBytes (accessWidth W st1) st1.mem st1.dest st1.src := by
        rw [loopBody_eq]
      have hb2 : (loopBody W st2).mem =
          storeBytes (accessWidth W st1) st2.mem st1.dest st1.src := by
        rw [loopBody_eq, accessWidth_congr W st1 st2 hd2 hs2 hn2, hd2, hs2]
      have hn' : (loopBody W st2).n_bytes = (loopBody W st1).n_bytes := by
        rw [loopBody_eq, loopBody_eq, accessWidth_congr W st1 st2 hd2 hs2 hn2, hn2]
      have hsrc' : ∀ b, inRange s0 N b → (loopBody W st2).mem b = (loopBody W st1).mem b := by
        intro b hb
        unfold inRange at hb
        rw [hb1, hb2]
        unfold storeBytes
        rw [if_neg (by omega), if_neg (by omega)]
        exact hsrc b hb
      rcases ih (loopBody W st1) (loopBody W st2) (k + 1)
          (by rw [loopBody_dest, hd1]; omega) (by rw [loopBody_src, hs1]; omega) (by omega)
          (by rw [loopBody_dest, loopBody_dest, hd2])
          (by rw [loopBody_src, loopBody_src, hs2]) hn' hsrc' h1 h2 with ⟨e1, e2⟩ | e
      · by_cases hin : st1.dest ≤ a ∧ a < st1.dest + accessWidth W st1
        · right
          rw [e1, e2, hb1, hb2]
          unfold storeBytes
          rw [if_pos hin, if_pos hin]
          exact (hsrc _ (by unfold inRange; omega)).symm
        · left
          rw [e1, e2, hb1, hb2]
          unfold storeBytes
          rw [if_neg hin, if_neg hin]
          exact ⟨rfl, rfl⟩
      · exact Or.inr e

/-- When the overlap test passes, the capacity suffices and the two addresses
differ, the source range and the destination range of `n_bytes` bytes are
disjoint. -/
theorem ranges_disjoint_of_checks (dest dsize src n_bytes : Nat)
    (hc : ¬ dsize < n_bytes) (ho : ¬ overlapCheck dest dsize src n_bytes)
    (hne : dest ≠ src) : dest + n_bytes ≤ src ∨ src + n_bytes ≤ dest := by
  unfold overlapCheck at ho
  omega

/-- Plain byte copy of a range onto itself changes nothing. -/
theorem plainByteCopy_self (n : Nat) (m : Mem) (p : Nat) : plainByteCopy n m p p = m := by
  induction n generalizing m p with
  | zero => exact plainByteCopy_zero m p p
  | succ n ih =>
    rw [plainByteCopy_succ]
    unfold storeChar
    rw [storeBytes_self, ih]

/-- A loop entered with a non-zero count runs the body once and goes on with
one iteration less to spare. -/
theorem copyLoop_pred (W : Nat) (fuel : Nat) (st : LoopState) (hf : fuel ≠ 0)
    (h0 : st.n_bytes ≠ 0) :
    copyLoop W fuel st = copyLoop W (fuel - 1) (loopBody W st) := by
  cases fuel with
  | zero => exact absurd rfl hf
  | succ k => simp [copyLoop, h0]

theorem loopIters_pred (W : Nat) (fuel : Nat) (st : LoopState) (hf : fuel ≠ 0)
    (h0 : st.n_bytes ≠ 0) :
    loopIters W fuel st = st :: loopIters W (fuel - 1) (loopBody W st) := by
  cases fuel with
  | zero => exact absurd rfl hf
  | succ k => simp [loopIters, h0]

/-- After a `long` step taken from aligned cursors with a count that is a
multiple of `sizeof(long)`, every further iteration moves exactly one byte. -/
theorem oneByteSteps_after_long (W : Nat) (m : Mem) (dest src n_bytes : Nat)
    (hW : 0 < W) (had : dest % W = 0) (han : n_bytes % W = 0) (hle : W ≤ n_bytes) :
    oneByteSteps W ⟨m, dest + 1, src + 1, n_bytes - W⟩ := by
  by_cases h1 : W = 1
  · exact Or.inl h1
  · right; right
    show (dest + 1 + (n_bytes - W)) % W ≠ 0
    have hdv : W ∣ dest + (n_bytes - W) :=
      Dvd.dvd.add (Nat.dvd_of_mod_eq_zero had)
        (Nat.dvd_sub' (Nat.dvd_of_mod_eq_zero han) (Nat.dvd_refl W))
    obtain ⟨c, hc⟩ := hdv
    have e : dest + 1 + (n_bytes - W) = W * c + 1 := by omega
    rw [e, Nat.mul_add_mod, Nat.mod_eq_of_lt (by omega)]
    omega

/-! ## The claims, continued -/

/-- C11: idempotence. When a call returns `ERR_NONE` and leaves the memory
`m1`, the same call made again on `m1` returns `ERR_NONE` and leaves `m1`. -/
theorem copyNBytes_idempotent (W : Nat) (m : Mem) (dest dsize src n_bytes : Nat)
    (m1 : Mem) (h : copyNBytes W m dest dsize src n_bytes = some (ERR_NONE, m1)) :
    copyNBytes W m1 dest dsize src n_bytes = some (ERR_NONE, m1) := by
  obtain ⟨hd, hs, hc, hn, ho, st1, hrun1, hmem1⟩ :=
    copyNBytes_ERR_NONE_inv W m dest dsize src n_bytes m1 h
  obtain ⟨st2, hrun2, hcall2⟩ :=
    copyNBytes_of_checks_some W m1 dest dsize src n_bytes hd hs hc hn ho
  rw [hcall2]
  suffices hm : st2.mem = m1 by rw [hm]
  by_cases hne : dest = src
  · exact copyLoop_same_addr W n_bytes ⟨m1, dest, src, n_bytes⟩ st2 hne hrun2
  · have hdisj := ranges_disjoint_of_checks dest dsize src n_bytes hc ho hne
    obtain ⟨st1', hrun1', _, hframe⟩ :=
      copyLoop_exits W n_bytes ⟨m, dest, src, n_bytes⟩ (Nat.le_refl _)
    rw [hrun1] at hrun1'
    cases hrun1'
    subst hmem1
    funext a
    have hsrc : ∀ b, inRange src n_bytes b → st1.mem b = m b := by
      intro b hb
      apply hframe b
      unfold inRange at hb
      show b < dest ∨ dest + n_bytes ≤ b
      omega
    rcases copyLoop_agree W dest src n_bytes hdisj n_bytes ⟨m, dest, src, n_bytes⟩
        ⟨st1.mem, dest, src, n_bytes⟩ 0 rfl rfl (by simp) rfl rfl rfl hsrc st1 st2 hrun1 hrun2 a
      with ⟨_, e2⟩ | e
    · exact e2
    · exact e.symm

theorem copyNBytes_idempotent_witness :
    ∃ m1, copyNBytes 8 addrMem 16 16 64 16 = some (ERR_NONE, m1) ∧
      copyNBytes 8 m1 16 16 64 16 = some (ERR_NONE, m1) :=
  ⟨_, rfl, copyNBytes_idempotent 8 addrMem 16 16 64 16 _ rfl⟩

/-- C12, evaluated where it fails. With `sizeof(long) = 8`, destination 16,
source 64 and 16 bytes requested out of a capacity of 16, all five checks pass,
the loop leaves the old byte 31 at destination offset 15, and the plain byte
copy puts the source byte 79 there. -/
theorem copyNBytes_differs_from_plainByteCopy :
    (16 ≠ NULL ∧ 64 ≠ NULL ∧ ¬ 16 < 16 ∧ 16 ≠ 0 ∧ ¬ overlapCheck 16 16 64 16) ∧
    byteAfter (copyNBytes 8 addrMem 16 16 64 16) (16 + 15) = some 31 ∧
    plainByteCopy 16 addrMem 16 64 (16 + 15) = 79 := by
  decide

/-- C13, evaluated where it fails. With `sizeof(long) = 8`, destination 16,
source 64 and 16 bytes requested out of a capacity of 16, all five checks pass
and the loop writes destination offsets 0 and 8 once, offsets 1 to 7 twice and
offsets 9 to 15 not at all. -/
theorem copyNBytes_offsets_not_written_once :
    (16 ≠ NULL ∧ 64 ≠ NULL ∧ ¬ 16 < 16 ∧ 16 ≠ 0 ∧ ¬ overlapCheck 16 16 64 16) ∧
    ∀ i, i < 16 →
      writeCount 8 (loopIters 8 16 ⟨addrMem, 16, 64, 16⟩) (16 + i) =
        if i = 0 ∨ i = 8 then 1 else if i < 8 then 2 else 0 := by
  decide

/-- C14: for a request that passes the five checks the loop terminates. Every
iteration starts with a non-zero count and strictly decreases it: the `long`
branch is entered only with the count a non-zero multiple of `sizeof(long)`, so
at least `sizeof(long)`, and takes exactly `sizeof(long)` off; the `char` branch
takes exactly one off; neither subtraction goes below zero. The loop exits with
the count at zero and the call returns `ERR_NONE`. -/
theorem copyNBytes_loop_terminates (W : Nat) (m : Mem) (dest dsize src n_bytes : Nat)
    (hd : dest ≠ NULL) (hs : src ≠ NULL) (hc : ¬ dsize < n_bytes) (hn : n_bytes ≠ 0)
    (ho : ¬ overlapCheck dest dsize src n_bytes) :
    (∀ it ∈ loopIters W n_bytes ⟨m, dest, src, n_bytes⟩,
      it.n_bytes ≠ 0 ∧ (loopBody W it).n_bytes < it.n_bytes ∧
      (longAligned W it → 0 < W ∧ it.n_bytes % W = 0 ∧ W ≤ it.n_bytes ∧
        (loopBody W it).n_bytes + W = it.n_bytes) ∧
      (¬ longAligned W it → 1 ≤ it.n_bytes ∧ (loopBody W it).n_bytes + 1 = it.n_bytes)) ∧
    ∃ st', copyLoop W n_bytes ⟨m, dest, src, n_bytes⟩ = some st' ∧ st'.n_bytes = 0 ∧
      copyNBytes W m dest dsize src n_bytes = some (ERR_NONE, st'.mem) := by
  constructor
  · intro it hit
    obtain ⟨h0, _⟩ := loopIters_inv W dest src n_bytes n_bytes ⟨m, dest, src, n_bytes⟩ 0
      rfl rfl (by simp) it hit
    refine ⟨h0, loopBody_n_bytes_lt W it h0, ?_, ?_⟩
    · intro hl
      obtain ⟨hW, hle⟩ := longAligned_le W it hl h0
      refine ⟨hW, hl.2.2, hle, ?_⟩
      unfold loopBody
      rw [if_pos hl]
      show it.n_bytes - W + W = it.n_bytes
      omega
    · intro hl
      refine ⟨by omega, ?_⟩
      unfold loopBody
      rw [if_neg hl]
      show it.n_bytes - 1 + 1 = it.n_bytes
      omega
  · obtain ⟨st', hrun, hz, _⟩ :=
      copyLoop_exits W n_bytes ⟨m, dest, src, n_bytes⟩ (Nat.le_refl _)
    refine ⟨st', hrun, hz, ?_⟩
    rw [copyNBytes_of_checks W m dest dsize src n_bytes hd hs hc hn ho, hrun]
    rfl

theorem copyNBytes_loop_terminates_witness :
    (∀ it ∈ loopIters 8 16 ⟨addrMem, 16, 64, 16⟩,
      it.n_bytes ≠ 0 ∧ (loopBody 8 it).n_bytes < it.n_bytes ∧
      (longAligned 8 it → 0 < 8 ∧ it.n_bytes % 8 = 0 ∧ 8 ≤ it.n_bytes ∧
        (loopBody 8 it).n_bytes + 8 = it.n_bytes) ∧
      (¬ longAligned 8 it → 1 ≤ it.n_bytes ∧ (loopBody 8 it).n_bytes + 1 = it.n_bytes)) ∧
    ∃ st', copyLoop 8 16 ⟨addrMem, 16, 64, 16⟩ = some st' ∧ st'.n_bytes = 0 ∧
      copyNBytes 8 addrMem 16 16 64 16 = some (ERR_NONE, st'.mem) :=
  copyNBytes_loop_terminates 8 addrMem 16 16 64 16 (by decide) (by decide) (by decide)
    (by decide) (by decide)

/-- C15: there is a call with non-null destination and source and
`0 < n_bytes < dsize`, with `dest < src`, `dest + n_bytes ≤ src` and
`src < dest + dsize`, in which no address lies in both the source read range
and the destination write range, and which returns `ERR_SRC_DST_OVERLAP`. -/
theorem copyNBytes_reports_overlap_without_shared_address :
    ∃ (W : Nat) (m : Mem) (dest dsize src n_bytes : Nat),
      dest ≠ NULL ∧ src ≠ NULL ∧ 0 < n_bytes ∧ n_bytes < dsize ∧
      (dest < src ∧ dest + n_bytes ≤ src ∧ src < dest + dsize) ∧
      (∀ a, ¬ (inRange src n_bytes a ∧ inRange dest n_bytes a)) ∧
      retCode (copyNBytes W m dest dsize src n_bytes) = some ERR_SRC_DST_OVERLAP := by
  refine ⟨8, addrMem, 16, 100, 64, 10, by decide, by decide, by decide, by decide,
    by decide, ?_, by decide⟩
  intro a
  unfold inRange
  omega

/-- C16: every iteration of the loop has both cursors at the same offset from
the addresses the call was given, with that offset plus the remaining count
within `n_bytes`; the `long` branch runs only with at least `sizeof(long)` bytes
remaining; so every byte an iteration reads lies in `[src, src + n_bytes)` and
every byte it writes lies in `[dest, dest + n_bytes)`. -/
theorem copyNBytes_accesses_in_range (W : Nat) (m : Mem) (dest src n_bytes : Nat) :
    ∀ it ∈ loopIters W n_bytes ⟨m, dest, src, n_bytes⟩,
      (∃ k, it.dest = dest + k ∧ it.src = src + k ∧ k + it.n_bytes ≤ n_bytes) ∧
      (longAligned W it → W ≤ it.n_bytes) ∧
      (∀ a, inRange it.src (accessWidth W it) a → inRange src n_bytes a) ∧
      (∀ a, inRange it.dest (accessWidth W it) a → inRange dest n_bytes a) := by
  intro it hit
  obtain ⟨h0, k, hkd, hks, hk⟩ :=
    loopIters_inv W dest src n_bytes n_bytes ⟨m, dest, src, n_bytes⟩ 0
      rfl rfl (by simp) it hit
  have hw := accessWidth_le W it h0
  refine ⟨⟨k, hkd, hks, hk⟩, fun hl => (longAligned_le W it hl h0).2, ?_, ?_⟩
  · intro a ha
    unfold inRange at ha ⊢
    omega
  · intro a ha
    unfold inRange at ha ⊢
    omega

theorem copyNBytes_accesses_in_range_witness :
    (⟨addrMem, 16, 64, 16⟩ : LoopState) ∈ loopIters 8 16 ⟨addrMem, 16, 64, 16⟩ ∧
    (∃ k, 16 = 16 + k ∧ 64 = 64 + k ∧ k + 16 ≤ 16) ∧
    (longAligned 8 ⟨addrMem, 16, 64, 16⟩ → 8 ≤ 16) ∧
    (∀ a, inRange 64 (accessWidth 8 ⟨addrMem, 16, 64, 16⟩) a → inRange 64 16 a) ∧
    (∀ a, inRange 16 (accessWidth 8 ⟨addrMem, 16, 64, 16⟩) a → inRange 16 16 a) :=
  ⟨List.Mem.head _,
    copyNBytes_accesses_in_range 8 addrMem 16 64 16 ⟨addrMem, 16, 64, 16⟩ (List.Mem.head _)⟩

/-- C18: for a request that passes the five checks, with both addresses and
`n_bytes` multiples of `sizeof(long)`, `n_bytes` at least twice `sizeof(long)`
and the two ranges disjoint: the first iteration takes the `long` branch, storing
`sizeof(long)` bytes at offset 0, advancing both cursors by one byte and taking
`sizeof(long)` off the count; the loop finishes with `n_bytes - sizeof(long)`
one-byte steps at offsets `1` to `n_bytes - sizeof(long)` (none of them in the
`long` branch when `sizeof(long) > 1`); the call returns `ERR_NONE`; destination
offsets `0` to `n_bytes - sizeof(long)` hold the source bytes and the last
`sizeof(long) - 1` destination offsets hold what they held before the call. -/
theorem copyNBytes_long_step_then_bytes (W : Nat) (m : Mem)
    (dest dsize src n_bytes : Nat)
    (hd : dest ≠ NULL) (hs : src ≠ NULL) (hc : ¬ dsize < n_bytes)
    (ho : ¬ overlapCheck dest dsize src n_bytes)
    (had : dest % W = 0) (has : src % W = 0) (han : n_bytes % W = 0)
    (h2 : 2 * W ≤ n_bytes) (hdisj : dest + n_bytes ≤ src ∨ src + n_bytes ≤ dest) :
    longAligned W ⟨m, dest, src, n_bytes⟩ ∧
    loopBody W ⟨m, dest, src, n_bytes⟩ =
      ⟨storeLong W m dest src, dest + 1, src + 1, n_bytes - W⟩ ∧
    (loopIters W n_bytes ⟨m, dest, src, n_bytes⟩).map
        (fun it => (it.dest, it.src, accessWidth W it)) =
      (dest, src, W) ::
        (List.range (n_bytes - W)).map (fun j => (dest + 1 + j, src + 1 + j, 1)) ∧
    (1 < W → ∀ it ∈ (loopIters W n_bytes ⟨m, dest, src, n_bytes⟩).tail,
      ¬ longAligned W it) ∧
    ∃ m', copyNBytes W m dest dsize src n_bytes = some (ERR_NONE, m') ∧
      (∀ i, i ≤ n_bytes - W → m' (dest + i) = m (src + i)) ∧
      (∀ i, n_bytes - W < i → i < n_bytes → m' (dest + i) = m (dest + i)) := by
  have hW : 0 < W := by
    rcases Nat.eq_zero_or_pos W with h | h
    · subst h
      rw [Nat.mod_zero] at had
      exact absurd had hd
    · exact h
  have hn : n_bytes ≠ 0 := by omega
  have hl : longAligned W ⟨m, dest, src, n_bytes⟩ := ⟨had, has, han⟩
  have hbody : loopBody W ⟨m, dest, src, n_bytes⟩ =
      ⟨storeLong W m dest src, dest + 1, src + 1, n_bytes - W⟩ := by
    unfold loopBody
    rw [if_pos hl]
  have hone := oneByteSteps_after_long W (storeLong W m dest src) dest src n_bytes hW had han
    (by omega)
  have hwidth : accessWidth W ⟨m, dest, src, n_bytes⟩ = W := by
    unfold accessWidth
    rw [if_pos hl]
  have hiters := loopIters_pred W n_bytes ⟨m, dest, src, n_bytes⟩ hn hn
  rw [hbody] at hiters
  refine ⟨hl, hbody, ?_, ?_, ?_⟩
  · rw [hiters, List.map_cons, hwidth,
      loopIters_oneByteSteps W (n_bytes - 1) _ hone (by show n_bytes - W ≤ n_bytes - 1; omega)]
  · intro h1 it hit
    rw [hiters, List.tail_cons] at hit
    refine loopIters_neverLong W (n_bytes - 1) _ ?_ it hit
    rcases hone with h | h
    · omega
    · exact h
  · refine ⟨plainByteCopy (n_bytes - W) (storeLong W m dest src) (dest + 1) (src + 1),
      ?_, ?_, ?_⟩
    · rw [copyNBytes_of_checks W m dest dsize src n_bytes hd hs hc hn ho,
        copyLoop_pred W n_bytes _ hn hn, hbody,
        copyLoop_oneByteSteps W (n_bytes - 1) _ hone
          (by show n_bytes - W ≤ n_bytes - 1; omega)]
      rfl
    · intro i hi
      rw [plainByteCopy_apply _ _ _ _ (by omega)]
      unfold inRange storeLong storeBytes
      split_ifs <;> first | rfl | (congr 1; omega)
    · intro i hi hin
      rw [plainByteCopy_apply _ _ _ _ (by omega)]
      unfold inRange storeLong storeBytes
      split_ifs <;> first | rfl | (congr 1; omega)

theorem copyNBytes_long_step_then_bytes_witness :
    longAligned 8 ⟨addrMem, 16, 64, 16⟩ ∧
    loopBody 8 ⟨addrMem, 16, 64, 16⟩ =
      ⟨storeLong 8 addrMem 16 64, 16 + 1, 64 + 1, 16 - 8⟩ ∧
    (loopIters 8 16 ⟨addrMem, 16, 64, 16⟩).map
        (fun it => (it.dest, it.src, accessWidth 8 it)) =
      (16, 64, 8) ::
        (List.range (16 - 8)).map (fun j => (16 + 1 + j, 64 + 1 + j, 1)) ∧
    (1 < 8 → ∀ it ∈ (loopIters 8 16 ⟨addrMem, 16, 64, 16⟩).tail,
      ¬ longAligned 8 it) ∧
    ∃ m', copyNBytes 8 addrMem 16 16 64 16 = some (ERR_NONE, m') ∧
      (∀ i, i ≤ 16 - 8 → m' (16 + i) = addrMem (64 + i)) ∧
      (∀ i, 16 - 8 < i → i < 16 → m' (16 + i) = addrMem (16 + i)) :=
  copyNBytes_long_step_then_bytes 8 addrMem 16 16 64 16 (by decide) (by decide)
    (by decide) (by decide) (by decide) (by decide) (by decide) (by decide) (by decide)

/-- C19: a call with destination and source at the same non-null address and
`0 < n_bytes ≤ dsize` passes the overlap test, returns `ERR_NONE` and leaves the
memory exactly as it was. -/
theorem copyNBytes_same_address (W : Nat) (m : Mem) (dest dsize n_bytes : Nat)
    (hd : dest ≠ NULL) (hn : 0 < n_bytes) (hc : n_bytes ≤ dsize) :
    ¬ overlapCheck dest dsize dest n_bytes ∧
    copyNBytes W m dest dsize dest n_bytes = some (ERR_NONE, m) := by
  have ho : ¬ overlapCheck dest dsize dest n_bytes := by
    unfold overlapCheck; omega
  refine ⟨ho, ?_⟩
  obtain ⟨st', hrun, hcall⟩ :=
    copyNBytes_of_checks_some W m dest dsize dest n_bytes hd hd (by omega) (by omega) ho
  rw [hcall, copyLoop_same_addr W n_bytes ⟨m, dest, dest, n_bytes⟩ st' rfl hrun]

theorem copyNBytes_same_address_witness :
    ¬ overlapCheck 16 16 16 16 ∧
    copyNBytes 8 addrMem 16 16 16 16 = some (ERR_NONE, addrMem) :=
  copyNBytes_same_address 8 addrMem 16 16 16 (by decide) (by decide) (by decide)

/-- C20: a call with non-null destination and source at different addresses and
`0 < n_bytes ≤ dsize`, in which some address lies in both the source read range
`[src, src + n_bytes)` and the destination write range `[dest, dest + n_bytes)`,
returns `ERR_SRC_DST_OVERLAP`. -/
theorem copyNBytes_overlap_reported_unless_same_address (W : Nat) (m : Mem)
    (dest dsize src n_bytes : Nat) (hd : dest ≠ NULL) (hs : src ≠ NULL)
    (hne : dest ≠ src) (hn : 0 < n_bytes) (hc : n_bytes ≤ dsize) (a : Nat)
    (ha : inRange src n_bytes a ∧ inRange dest n_bytes a) :
    retCode (copyNBytes W m dest dsize src n_bytes) = some ERR_SRC_DST_OVERLAP := by
  have ho : overlapCheck dest dsize src n_bytes := by
    unfold inRange at ha
    unfold overlapCheck
    omega
  unfold copyNBytes
  rw [if_neg hd, if_neg hs, if_neg (by omega), if_neg (by omega), if_pos ho]
  rfl

theorem copyNBytes_overlap_reported_unless_same_address_witness :
    (inRange 20 8 21 ∧ inRange 16 8 21) ∧
    retCode (copyNBytes 8 addrMem 16 8 20 8) = some ERR_SRC_DST_OVERLAP :=
  ⟨by decide,
    copyNBytes_overlap_reported_unless_same_address 8 addrMem 16 8 20 8 (by decide)
      (by decide) (by decide) (by decide) (by decide) 21 (by decide)⟩

end CopyNBytes
